import Mathlib

/-!
# Verification of the ProgressiveReader content pipeline

Shallow embedding of the core pipeline of `src/app.py`:

* `get_toc_list` (spine path index, depth-first ToC traversal, dedup),
* `add_jlpt_highlighting` (prose-element text annotation),
* `read_item` (content decoding, image `src` rewriting, error flow),

together with the `posixpath` helpers (`join`, `normpath`, `dirname`),
Python's `html.escape`, and UTF-8 decoding with the `ignore` error
handler, as used by those functions.

Python strings are modelled as Lean `String`; machine-level byte
content as `List Nat` (each entry one byte).  Python dicts that are
only ever used via insert-if-absent and key lookup are modelled as
association lists whose keys are unique by construction.
-/

/-- Association-list lookup, modelling Python `dict.get` /
`key in dict` for the dicts built by the code (first match wins;
the code only inserts a key when it is absent, so keys are unique). -/
def alistGet {α : Type} : List (String × α) → String → Option α
  | [], _ => none
  | (k, v) :: rest, key => if k = key then some v else alistGet rest key

/-- `s.split('#')[0]` from `get_toc_list`: everything before the first
`#` (the whole string when there is no `#`). -/
def stripFragment (s : String) : String :=
  String.mk (s.data.takeWhile (fun c => c ≠ '#'))

/-- A manifest item as used by `get_toc_list`: only its `file_name`
attribute is consulted.  An empty string models a falsy `file_name`. -/
structure EpubItem where
  file_name : String
deriving DecidableEq

/-- `book.get_item_with_id`: the book's manifest, modelled as an
association list from item id to item. -/
def getItemWithId (book : List (String × EpubItem)) (itemId : String) : Option EpubItem :=
  alistGet book itemId

/-- The fragment-stripped path contributed by one spine id in the
`spine_file_map` loop of `get_toc_list`: the item must exist and have
a truthy (non-empty) `file_name`; its `file_name.split('#')[0]` is the
key used. -/
def pathAt (book : List (String × EpubItem)) (itemId : String) : Option String :=
  match getItemWithId book itemId with
  | some item => if item.file_name ≠ "" then some (stripFragment item.file_name) else none
  | none => none

/-- The `for index, item_id in enumerate(spine_ids)` loop of
`get_toc_list` (src/app.py lines 53-58): walk the spine ids with a
running index, and insert `base_filename ↦ index` when the key is not
yet present. -/
def spineFileMapGo (book : List (String × EpubItem)) :
    List String → Nat → List (String × Nat) → List (String × Nat)
  | [], _, m => m
  | itemId :: rest, index, m =>
    match pathAt book itemId with
    | some base =>
      if (alistGet m base).isSome then
        spineFileMapGo book rest (index + 1) m
      else
        spineFileMapGo book rest (index + 1) (m ++ [(base, index)])
    | none => spineFileMapGo book rest (index + 1) m

/-- The `spine_file_map` dict built by `get_toc_list`. -/
def spine_file_map (book : List (String × EpubItem)) (spineIds : List String) :
    List (String × Nat) :=
  spineFileMapGo book spineIds 0 []

/-- The fragment-stripped path of the spine entry at position `i`
(`none` when the position is out of range, the item is missing, or its
`file_name` is falsy). -/
def spinePath (book : List (String × EpubItem)) (spineIds : List String) (i : Nat) :
    Option String :=
  (spineIds[i]?).bind (pathAt book)

/-- Position of the first spine entry (counting from the front of the
given list) whose fragment-stripped path is `p`. -/
def firstIdx (book : List (String × EpubItem)) (p : String) : List String → Option Nat
  | [] => none
  | itemId :: rest =>
    if pathAt book itemId = some p then some 0 else (firstIdx book p rest).map (· + 1)

/-- One node of the raw navigation tree handled by `process_toc_item`:
`ebooklib.epub.Link`, `ebooklib.epub.Section` (with its children),
the `(node, [children])` tuple shape, or any other value (ignored by
the `isinstance` dispatch).  A `Tuple` whose second component is not a
list is modelled with `none`. -/
inductive TocItem where
  | Link (title : Option String) (href : String)
  | Section (title : Option String) (children : List TocItem)
  | Tuple (fst : TocItem) (rest : Option (List TocItem))
  | Other

/-- One entry appended to `toc_list`. -/
structure TocEntry where
  title : String
  index : Nat
  href : String
deriving DecidableEq

/-- Python `item.title or "(No Title)"`: `None` and the empty string
both fall back to the placeholder. -/
def pyOrTitle : Option String → String
  | none => "(No Title)"
  | some t => if t = "" then "(No Title)" else t

/-- The `Link` branch of `process_toc_item` (src/app.py lines 63-71):
resolve `href.split('#')[0]` against the spine file map and emit one
entry on success, nothing on failure. -/
def linkEntry (m : List (String × Nat)) (title : Option String) (href : String) :
    List TocEntry :=
  match alistGet m (stripFragment href) with
  | some idx => [{ title := pyOrTitle title, index := idx, href := href }]
  | none => []

mutual

/-- `process_toc_item` (src/app.py lines 61-87): the list of entries a
node appends to `toc_list`, in order. -/
def processTocItem (m : List (String × Nat)) : TocItem → List TocEntry
  | .Link title href => linkEntry m title href
  | .Section _ children => processTocList m children
  | .Tuple fst rest => processTupleFst m fst ++ processTupleRest m rest
  | .Other => []

/-- The `isinstance(item[0], (Section, Link))` guard of the tuple
branch: only a `Link` or `Section` first component is processed. -/
def processTupleFst (m : List (String × Nat)) : TocItem → List TocEntry
  | .Link t h => linkEntry m t h
  | .Section _ cs => processTocList m cs
  | _ => []

/-- The `isinstance(item[1], list)` guard of the tuple branch: only a
list second component is recursed into. -/
def processTupleRest (m : List (String × Nat)) : Option (List TocItem) → List TocEntry
  | some l => processTocList m l
  | none => []

/-- Entries appended by a list of nodes processed in order (the
recursion over `item.children`, `item[1]`, and `book.toc`). -/
def processTocList (m : List (String × Nat)) : List TocItem → List TocEntry
  | [] => []
  | c :: cs => processTocItem m c ++ processTocList m cs

end

/-- The dedup loop of `get_toc_list` (src/app.py lines 94-99): keep an
entry only when its `index` has not been seen yet. -/
def dedupFirstAux (seen : List Nat) : List TocEntry → List TocEntry
  | [] => []
  | e :: rest =>
    if e.index ∈ seen then dedupFirstAux seen rest
    else e :: dedupFirstAux (e.index :: seen) rest

/-- `get_toc_list` given an already-built spine file map `m`: traverse
the navigation items, then deduplicate by resolved index. -/
def getTocList (m : List (String × Nat)) (items : List TocItem) : List TocEntry :=
  dedupFirstAux [] (processTocList m items)

mutual

/-- Number of `Link` nodes reachable anywhere in a navigation node
(including inside tuple components the traversal skips). -/
def countLinks : TocItem → Nat
  | .Link _ _ => 1
  | .Section _ children => countLinksList children
  | .Tuple fst rest => countLinks fst + countLinksRest rest
  | .Other => 0

/-- Number of `Link` nodes in an optional tuple tail. -/
def countLinksRest : Option (List TocItem) → Nat
  | some l => countLinksList l
  | none => 0

/-- Number of `Link` nodes reachable in a list of navigation nodes. -/
def countLinksList : List TocItem → Nat
  | [] => 0
  | c :: cs => countLinks c + countLinksList cs

end

/-- Whitespace as removed by the code's `child.strip()` test (the
ASCII part of Python's `str.strip` default set). -/
def isPySpace (c : Char) : Bool :=
  c == ' ' || c == '\t' || c == '\n' || c == '\r' || c == Char.ofNat 11 || c == Char.ofNat 12

/-- Truthiness of `child.strip()`: a string strips to non-empty iff it
has some non-whitespace character. -/
def stripNonempty (s : String) : Bool :=
  s.data.any (fun c => !(isPySpace c))

/-- One character of Python `html.escape` (its default `quote=True`):
`&`, `<`, `>`, `"` and the apostrophe become entities, every other
character is kept.  (`html.escape` replaces `&` first, so a
character-wise map is equivalent.) -/
def escChar (c : Char) : String :=
  if c = '&' then "&amp;"
  else if c = '<' then "&lt;"
  else if c = '>' then "&gt;"
  else if c = Char.ofNat 34 then "&quot;"
  else if c = Char.ofNat 39 then "&#x27;"
  else String.mk [c]

/-- `html.escape` over a character list. -/
def htmlEscapeList : List Char → String
  | [] => ""
  | c :: cs => escChar c ++ htmlEscapeList cs

/-- Python `html.escape(s)`. -/
def htmlEscape (s : String) : String :=
  htmlEscapeList s.data

/-- Concatenation of a list of strings. -/
def strConcat : List String → String
  | [] => ""
  | s :: rest => s ++ strConcat rest

/-- One fugashi token as consumed by the code: its `surface` and its
`feature.lemma` (which fugashi reports as `None` for some tokens). -/
structure Token where
  surface : String
  feature_lemma : Option String
deriving DecidableEq

/-- The tag list of `soup.find_all` in `add_jlpt_highlighting`
(src/app.py line 124). -/
def contentTags : List String :=
  ["p", "div", "span", "h1", "h2", "h3", "h4", "h5", "h6"]

/-- A markup tree node as handled through BeautifulSoup: an element
(tag, attributes, ordered children) or a text run (`NavigableString`). -/
inductive Node where
  | text (s : String)
  | elem (tag : String) (attrs : List (String × String)) (children : List Node)

mutual

def nodeDecEq : (a b : Node) → Decidable (a = b)
  | .text s, .text t =>
    if h : s = t then isTrue (by rw [h]) else isFalse (fun hc => h (Node.text.inj hc))
  | .text _, .elem _ _ _ => isFalse (fun hc => Node.noConfusion hc)
  | .elem _ _ _, .text _ => isFalse (fun hc => Node.noConfusion hc)
  | .elem t1 a1 c1, .elem t2 a2 c2 =>
    if h1 : t1 = t2 then
      if h2 : a1 = a2 then
        match nodeListDecEq c1 c2 with
        | isTrue h3 => isTrue (by rw [h1, h2, h3])
        | isFalse h3 => isFalse (fun hc => h3 (Node.elem.inj hc).2.2)
      else isFalse (fun hc => h2 (Node.elem.inj hc).2.1)
    else isFalse (fun hc => h1 (Node.elem.inj hc).1)

def nodeListDecEq : (xs ys : List Node) → Decidable (xs = ys)
  | [], [] => isTrue rfl
  | [], _ :: _ => isFalse (fun hc => List.noConfusion hc)
  | _ :: _, [] => isFalse (fun hc => List.noConfusion hc)
  | x :: xs, y :: ys =>
    match nodeDecEq x y with
    | isFalse h => isFalse (fun hc => h (List.cons.inj hc).1)
    | isTrue h1 =>
      match nodeListDecEq xs ys with
      | isTrue h2 => isTrue (by rw [h1, h2])
      | isFalse h2 => isFalse (fun hc => h2 (List.cons.inj hc).2)

end

instance : DecidableEq Node := nodeDecEq

/-- Python `str.lower()` for the ASCII level labels (`"N5"` → `"n5"`). -/
def strToLower (s : String) : String :=
  String.mk (s.data.map Char.toLower)

/-- The fragment produced for one token (src/app.py lines 133-144): a
lemma found in the JLPT dict becomes a `span` with the lowercased
level as `class`, holding the escaped surface; otherwise the escaped
surface is emitted as plain text. -/
def tokenFragment (d : List (String × String)) (tok : Token) : Node :=
  match tok.feature_lemma.bind (fun l => alistGet d l) with
  | some level => .elem ("span") [(("class"), strToLower level)] [.text (htmlEscape tok.surface)]
  | none => .text (htmlEscape tok.surface)

mutual

/-- `add_jlpt_highlighting` (src/app.py lines 116-156) as a pure tree
transformation.  `find_all` collects every `content_tags` element (at
any depth, in document order) before any mutation, then each collected
element has its immediate text children replaced in place; children
elements are shared by reference, and spans created by the rewrite are
never in the collected list.  That process equals this recursive
transform: rewrite the immediate text runs of `content_tags` elements,
and transform every originally-present child element by its own visit. -/
def annotateNode (d : List (String × String)) (tg : String → List Token) : Node → Node
  | .text s => .text s
  | .elem tag attrs children =>
    if contentTags.contains tag then .elem tag attrs (annotateContents d tg children)
    else .elem tag attrs (annotateList d tg children)

/-- The `for child in tag.contents` loop (src/app.py lines 128-149): a
direct `NavigableString` child with truthy `strip()` is tokenized and
replaced by its fragments; any other child is kept as-is at this
level (and later rewritten by its own visit, modelled here by the
recursive call). -/
def annotateContents (d : List (String × String)) (tg : String → List Token) :
    List Node → List Node
  | [] => []
  | .text s :: rest =>
    (if stripNonempty s then (tg s).map (tokenFragment d) else [Node.text s])
      ++ annotateContents d tg rest
  | c :: rest => annotateNode d tg c :: annotateContents d tg rest

/-- Children of an element not in `content_tags`: untouched at this
level, but every nested `content_tags` element is still in
`find_all`'s list and is rewritten by its own visit. -/
def annotateList (d : List (String × String)) (tg : String → List Token) :
    List Node → List Node
  | [] => []
  | c :: rest => annotateNode d tg c :: annotateList d tg rest

end

mutual

/-- The element-only skeleton of a tree: text runs dropped, elements
kept with tag, attributes and the skeletons of their children. -/
def skeleton : Node → List Node
  | .text _ => []
  | .elem tag attrs children => [Node.elem tag attrs (skeletonList children)]

def skeletonList : List Node → List Node
  | [] => []
  | c :: cs => skeleton c ++ skeletonList cs

end

mutual

/-- Concatenated text content of a tree, in document order. -/
def textContent : Node → String
  | .text s => s
  | .elem _ _ children => textContentList children

def textContentList : List Node → String
  | [] => ""
  | c :: cs => textContent c ++ textContentList cs

end

/-- A text run is reproduced exactly by the concatenation of its
escaped token surfaces (true in particular when tokenization is
lossless and the run has no `&<>"`-like characters). -/
def runOk (tg : String → List Token) (s : String) : Bool :=
  strConcat ((tg s).map (fun tok => htmlEscape tok.surface)) == s

/-- Every directly-tokenized text run among `children` satisfies
`runOk`. -/
def runsOk (tg : String → List Token) (children : List Node) : Bool :=
  children.all (fun c =>
    match c with
    | .text s => !(stripNonempty s) || runOk tg s
    | _ => true)

mutual

/-- The tokenizer reproduces (after escaping) every text run that the
annotation pass of this tree tokenizes. -/
def taggerFaithful (tg : String → List Token) : Node → Bool
  | .text _ => true
  | .elem tag _ children =>
    (!(contentTags.contains tag) || runsOk tg children) && taggerFaithfulList tg children

def taggerFaithfulList (tg : String → List Token) : List Node → Bool
  | [] => true
  | c :: cs => taggerFaithful tg c && taggerFaithfulList tg cs

end

mutual

/-- The annotation pass with a fallible tokenizer: `fugashi.Tagger`
construction or tokenization may raise, which aborts the whole
`try` body of `add_jlpt_highlighting`. -/
def annotateNodeE (d : List (String × String)) (tgE : String → Except String (List Token)) :
    Node → Except String Node
  | .text s => .ok (.text s)
  | .elem tag attrs children =>
    if contentTags.contains tag then
      (annotateContentsE d tgE children).map (fun cs => Node.elem tag attrs cs)
    else
      (annotateListE d tgE children).map (fun cs => Node.elem tag attrs cs)

def annotateContentsE (d : List (String × String)) (tgE : String → Except String (List Token)) :
    List Node → Except String (List Node)
  | [] => .ok []
  | .text s :: rest =>
    if stripNonempty s then
      match tgE s with
      | .error e => .error e
      | .ok toks =>
        match annotateContentsE d tgE rest with
        | .error e => .error e
        | .ok rest2 => .ok ((toks.map (tokenFragment d)) ++ rest2)
    else
      (annotateContentsE d tgE rest).map (fun r => Node.text s :: r)
  | c :: rest =>
    match annotateNodeE d tgE c with
    | .error e => .error e
    | .ok c2 => (annotateContentsE d tgE rest).map (fun r => c2 :: r)

def annotateListE (d : List (String × String)) (tgE : String → Except String (List Token)) :
    List Node → Except String (List Node)
  | [] => .ok []
  | c :: rest =>
    match annotateNodeE d tgE c with
    | .error e => .error e
    | .ok c2 => (annotateListE d tgE rest).map (fun r => c2 :: r)

end

/-- The `try`/`except` of `add_jlpt_highlighting` (src/app.py lines
118-159): any exception makes the function return its input unchanged. -/
def add_jlpt_highlighting (d : List (String × String))
    (tgE : String → Except String (List Token)) (doc : Node) : Node :=
  match annotateNodeE d tgE doc with
  | .ok out => out
  | .error _ => doc

/-- The flag check of `read_item` (src/app.py lines 295-301): the
rendered content is annotated only when `jlpt_enabled` is set. -/
def contentToRender (jlptEnabled : Bool) (d : List (String × String))
    (tgE : String → Except String (List Token)) (doc : Node) : Node :=
  if jlptEnabled then add_jlpt_highlighting d tgE doc else doc

/-- Whether a continuation byte is valid (`0x80..0xBF`). -/
def isCont (b : Nat) : Bool :=
  0x80 ≤ b && b ≤ 0xBF

/-- Lower bound for the second byte of a multi-byte sequence (UTF-8
shortest-form and scalar-range restrictions, as CPython enforces). -/
def cont2lo (b : Nat) : Nat :=
  if b = 0xE0 then 0xA0 else if b = 0xF0 then 0x90 else 0x80

/-- Upper bound for the second byte of a multi-byte sequence. -/
def cont2hi (b : Nat) : Nat :=
  if b = 0xED then 0x9F else if b = 0xF4 then 0x8F else 0xBF

/-- Worker for `decodeUtf8Ignore`, recursing on a fuel that bounds the
number of remaining bytes (each step consumes at least one byte, so a
fuel equal to the input length never runs out). -/
def decodeUtf8Go : Nat → List Nat → List Char
  | 0, _ => []
  | _ + 1, [] => []
  | fuel + 1, b :: bs =>
    if b ≤ 0x7F then Char.ofNat b :: decodeUtf8Go fuel bs
    else if 0xC2 ≤ b && b ≤ 0xDF then
      match bs with
      | [] => []
      | b2 :: bs2 =>
        if isCont b2 then Char.ofNat ((b - 0xC0) * 64 + (b2 - 0x80)) :: decodeUtf8Go fuel bs2
        else decodeUtf8Go fuel bs
    else if 0xE0 ≤ b && b ≤ 0xEF then
      match bs with
      | [] => []
      | b2 :: bs2 =>
        if cont2lo b ≤ b2 && b2 ≤ cont2hi b then
          match bs2 with
          | [] => []
          | b3 :: bs3 =>
            if isCont b3 then
              Char.ofNat ((b - 0xE0) * 4096 + (b2 - 0x80) * 64 + (b3 - 0x80))
                :: decodeUtf8Go fuel bs3
            else decodeUtf8Go fuel bs2
        else decodeUtf8Go fuel bs
    else if 0xF0 ≤ b && b ≤ 0xF4 then
      match bs with
      | [] => []
      | b2 :: bs2 =>
        if cont2lo b ≤ b2 && b2 ≤ cont2hi b then
          match bs2 with
          | [] => []
          | b3 :: bs3 =>
            if isCont b3 then
              match bs3 with
              | [] => []
              | b4 :: bs4 =>
                if isCont b4 then
                  Char.ofNat
                      ((b - 0xF0) * 262144 + (b2 - 0x80) * 4096 + (b3 - 0x80) * 64 + (b4 - 0x80))
                    :: decodeUtf8Go fuel bs4
                else decodeUtf8Go fuel bs3
            else decodeUtf8Go fuel bs2
        else decodeUtf8Go fuel bs
    else decodeUtf8Go fuel bs

/-- `bytes.decode('utf-8', 'ignore')` as used by `read_item`
(src/app.py lines 280-281): a UTF-8 decoder whose error handler drops
each invalid maximal subpart and resumes at the offending byte; a
truncated final sequence is dropped.  (The code first tries a strict
decode and falls back to `'ignore'` on `UnicodeDecodeError`; on valid
input the two agree, so the composition equals this function.) -/
def decodeUtf8Ignore (bs : List Nat) : List Char :=
  decodeUtf8Go bs.length bs

/-- Python `s.split(sep)` for a one-character separator, over
character lists (`"".split(sep)` is `[""]`, separators at the ends
yield empty components). -/
def splitChar (sep : Char) : List Char → List (List Char)
  | [] => [[]]
  | c :: cs =>
    if c = sep then [] :: splitChar sep cs
    else
      match splitChar sep cs with
      | g :: gs => (c :: g) :: gs
      | [] => [[c]]

/-- `'/'.join(comps)` over character lists. -/
def joinComps : List (List Char) → List Char
  | [] => []
  | [g] => g
  | g :: gs => g ++ '/' :: joinComps gs

/-- The `initial_slashes` computation of `posixpath.normpath`: one
leading slash counts 1, exactly two count 2 (POSIX allows two), three
or more count 1. -/
def leadingSlashes (cs : List Char) : Nat :=
  match cs with
  | '/' :: '/' :: '/' :: _ => 1
  | '/' :: '/' :: _ => 2
  | '/' :: _ => 1
  | _ => 0

/-- One step of the component loop of `posixpath.normpath`: empty and
`.` components are dropped; `..` pops the previous component unless at
the start of a relative path or after another `..`. -/
def normStep (slashes : Nat) (acc : List (List Char)) (comp : List Char) : List (List Char) :=
  if comp = [] ∨ comp = ['.'] then acc
  else if comp ≠ ['.', '.'] ∨ (slashes = 0 ∧ acc = []) ∨ acc.getLast? = some ['.', '.'] then
    acc ++ [comp]
  else if acc ≠ [] then acc.dropLast
  else acc

/-- `posixpath.normpath`: purely lexical normalization (no filesystem
access).  Leading `..` components of a relative path are preserved. -/
def posixNormpath (p : String) : String :=
  let cs := p.data
  if cs = [] then "."
  else
    let slashes := leadingSlashes cs
    let comps := splitChar '/' cs
    let newComps := comps.foldl (normStep slashes) []
    let body := List.replicate slashes '/' ++ joinComps newComps
    if body = [] then "." else String.mk body

/-- `posixpath.join(a, b)` for two arguments. -/
def posixJoin (a b : String) : String :=
  if b.data.head? = some '/' then b
  else if a.data = [] ∨ a.data.getLast? = some '/' then String.mk (a.data ++ b.data)
  else String.mk (a.data ++ '/' :: b.data)

/-- `posixpath.dirname(p)`: everything before the final slash, with
trailing slashes stripped unless the result is all slashes. -/
def posixDirname (p : String) : String :=
  let head := (p.data.reverse.dropWhile (fun c => c ≠ '/')).reverse
  let head2 :=
    if head ≠ [] ∧ ¬ (head.all (fun c => c = '/')) then
      (head.reverse.dropWhile (fun c => c = '/')).reverse
    else head
  String.mk head2

/-- BeautifulSoup `img_tag['src'] = value`: replace the value of an
existing key, keeping attribute order. -/
def setAttr (attrs : List (String × String)) (key val : String) : List (String × String) :=
  match attrs with
  | [] => [(key, val)]
  | (k, v) :: rest => if k = key then (key, val) :: rest else (k, v) :: setAttr rest key val

mutual

/-- The image-rewrite loop of `read_item` (src/app.py lines 284-290):
every `img` element with a truthy `src` gets its `src` replaced by the
caller-supplied mapping `f` applied to
`posixpath.normpath(posixpath.join(dir, src))`, where `dir` is the
directory of the unit's package path. -/
def rewriteImgSrc (f : String → String) (dir : String) : Node → Node
  | .text s => .text s
  | .elem tag attrs children =>
    let cs2 := rewriteImgList f dir children
    if tag = ("img") then
      match alistGet attrs ("src") with
      | some src =>
        if src ≠ "" then
          Node.elem tag (setAttr attrs ("src") (f (posixNormpath (posixJoin dir src)))) cs2
        else Node.elem tag attrs cs2
      | none => Node.elem tag attrs cs2
    else Node.elem tag attrs cs2

def rewriteImgList (f : String → String) (dir : String) : List Node → List Node
  | [] => []
  | c :: cs => rewriteImgSrc f dir c :: rewriteImgList f dir cs

end

/-- The per-document state `read_item` reads from the session: the
`spine_ids` list and the book contents behind `temp_epub_path`,
present only while a book is loaded.  A unit whose bytes cannot be
fetched or processed (the exception source inside the `try` of
src/app.py lines 270-303) is modelled as `none`. -/
structure LoadedBook where
  unitContents : List (Option String)
deriving DecidableEq

/-- The session as consulted by `read_item`: `none` models the absence
of the `spine_ids`/`temp_epub_path` keys. -/
structure SessionState where
  loaded : Option LoadedBook
deriving DecidableEq

/-- The possible outcomes of one `read_item` request. -/
inductive RenderOutcome where
  | page (content : String)
  | redirectIndex
  | redirectFirst
  | serverError
deriving DecidableEq

/-- `read_item` (src/app.py lines 246-308) as a state transition.
With no book loaded it redirects to the index; an out-of-range
position redirects to position 0; a readable unit renders a page and
leaves the session unchanged.  When reading the unit raises, control
reaches the `except` block at lines 304-308 — whose first statement
evaluates `spine_ids.get(item_index, ...)` on a *list*, raising
`AttributeError` before `flash`, `cleanup_temp_file()` or the redirect
can run.  The request therefore fails as an unhandled server error and
the session (the loaded document state) is left unchanged. -/
def read_item (s : SessionState) (i : Nat) : RenderOutcome × SessionState :=
  match s.loaded with
  | none => (.redirectIndex, s)
  | some book =>
    if i < book.unitContents.length then
      match book.unitContents[i]? with
      | some (some c) => (.page c, s)
      | _ => (.serverError, s)
    else (.redirectFirst, s)

/-! ## Theorems -/

theorem alistGet_append_single {α : Type} (m : List (String × α)) (k p : String) (v : α) :
    alistGet (m ++ [(k, v)]) p =
      match alistGet m p with
      | some w => some w
      | none => if k = p then some v else none := by
  induction m with
  | nil => simp [alistGet]
  | cons h t ih =>
    obtain ⟨k', v'⟩ := h
    by_cases hk : k' = p
    · simp [alistGet, hk]
    · simp [alistGet, hk, ih]

theorem dedupFirstAux_sublist (seen : List Nat) (l : List TocEntry) :
    List.Sublist (dedupFirstAux seen l) l := by
  induction l generalizing seen with
  | nil => simp [dedupFirstAux]
  | cons e rest ih =>
    by_cases h : e.index ∈ seen
    · simpa [dedupFirstAux, h] using (ih seen).cons e
    · simpa [dedupFirstAux, h] using (ih (e.index :: seen)).cons₂ e

theorem dedupFirstAux_indices (seen : List Nat) (l : List TocEntry) :
    (∀ e ∈ dedupFirstAux seen l, e.index ∉ seen)
    ∧ List.Nodup ((dedupFirstAux seen l).map TocEntry.index) := by
  induction l generalizing seen with
  | nil => simp [dedupFirstAux]
  | cons e rest ih =>
    by_cases h : e.index ∈ seen
    · simpa [dedupFirstAux, h] using ih seen
    · constructor
      · intro x hx
        simp only [dedupFirstAux, h, if_false, List.mem_cons] at hx
        rcases hx with rfl | hx
        · exact h
        · exact fun hc => (ih (e.index :: seen)).1 x hx (List.mem_cons_of_mem _ hc)
      · simp only [dedupFirstAux, h, if_false, List.map_cons, List.nodup_cons]
        refine ⟨fun hc => ?_, (ih (e.index :: seen)).2⟩
        obtain ⟨x, hx, hix⟩ := List.mem_map.mp hc
        exact (ih (e.index :: seen)).1 x hx (hix ▸ List.mem_cons_self _ _)

theorem mem_dedupFirstAux (seen : List Nat) (l : List TocEntry) (e : TocEntry) :
    e ∈ dedupFirstAux seen l ↔
      e.index ∉ seen ∧ List.find? (fun x => x.index == e.index) l = some e := by
  induction l generalizing seen with
  | nil => simp [dedupFirstAux]
  | cons a rest ih =>
    by_cases hae : a.index = e.index
    · have hfind : List.find? (fun x => x.index == e.index) (a :: rest) = some a :=
        List.find?_cons_of_pos _ (by simp [hae])
      by_cases h : a.index ∈ seen
      · rw [show dedupFirstAux seen (a :: rest) = dedupFirstAux seen rest from by
          simp [dedupFirstAux, h]]
        rw [ih, hfind]
        constructor
        · rintro ⟨hs, _⟩; exact absurd (hae ▸ h) hs
        · rintro ⟨hs, _⟩; exact absurd (hae ▸ h) hs
      · rw [show dedupFirstAux seen (a :: rest) =
            a :: dedupFirstAux (a.index :: seen) rest from by simp [dedupFirstAux, h]]
        rw [List.mem_cons, ih, hfind]
        constructor
        · rintro (rfl | ⟨hs, _⟩)
          · exact ⟨hae ▸ h, rfl⟩
          · exact absurd (by rw [hae]; exact List.mem_cons_self _ _) hs
        · rintro ⟨_, ha⟩
          exact Or.inl (Option.some.inj ha).symm
    · have hfind : List.find? (fun x => x.index == e.index) (a :: rest) =
          List.find? (fun x => x.index == e.index) rest :=
        List.find?_cons_of_neg _ (by simp [hae])
      by_cases h : a.index ∈ seen
      · rw [show dedupFirstAux seen (a :: rest) = dedupFirstAux seen rest from by
          simp [dedupFirstAux, h]]
        rw [ih, hfind]
      · rw [show dedupFirstAux seen (a :: rest) =
            a :: dedupFirstAux (a.index :: seen) rest from by simp [dedupFirstAux, h]]
        rw [List.mem_cons, ih, hfind]
        constructor
        · rintro (rfl | ⟨hs, hf⟩)
          · exact absurd rfl hae
          · exact ⟨fun hc => hs (List.mem_cons_of_mem _ hc), hf⟩
        · rintro ⟨hs, hf⟩
          refine Or.inr ⟨?_, hf⟩
          intro hc
          rcases List.mem_cons.mp hc with hc | hc
          · exact hae hc.symm
          · exact hs hc

/-- Claim C1 core: `get_toc_list` keeps, in traversal order, exactly
the first traversal entry for each resolved position. -/
theorem getTocList_first_occurrences (m : List (String × Nat)) (items : List TocItem) :
    List.Nodup ((getTocList m items).map TocEntry.index)
    ∧ List.Sublist (getTocList m items) (processTocList m items)
    ∧ ∀ e : TocEntry, e ∈ getTocList m items ↔
        List.find? (fun x => x.index == e.index) (processTocList m items) = some e := by
  refine ⟨(dedupFirstAux_indices [] _).2, dedupFirstAux_sublist [] _, fun e => ?_⟩
  rw [getTocList, mem_dedupFirstAux]
  simp

theorem spineFileMapGo_lookup (book : List (String × EpubItem)) (rest : List String) :
    ∀ (idx : Nat) (m : List (String × Nat)) (p : String),
      alistGet (spineFileMapGo book rest idx m) p =
        match alistGet m p with
        | some v => some v
        | none => (firstIdx book p rest).map (fun i => idx + i) := by
  induction rest with
  | nil =>
    intro idx m p
    cases hm : alistGet m p <;> simp [spineFileMapGo, firstIdx, hm]
  | cons itemId rest' ih =>
    intro idx m p
    cases hpa : pathAt book itemId with
    | none =>
      simp only [spineFileMapGo, hpa, ih]
      cases hm : alistGet m p
      · cases hfi : firstIdx book p rest' <;> (simp [firstIdx, hpa, hfi]; try omega)
      · simp
    | some base =>
      by_cases hbm : (alistGet m base).isSome
      · simp only [spineFileMapGo, hpa, if_pos hbm, ih]
        cases hm : alistGet m p
        · have hbp : base ≠ p := by
            intro hb; rw [hb, hm] at hbm; simp at hbm
          cases hfi : firstIdx book p rest' <;> (simp [firstIdx, hpa, hbp, hfi]; try omega)
        · simp
      · simp only [spineFileMapGo, hpa, if_neg hbm, ih, alistGet_append_single]
        cases hm : alistGet m p
        · by_cases hbp : base = p
          · subst hbp
            simp [firstIdx, hpa]
          · cases hfi : firstIdx book p rest' <;> (simp [firstIdx, hpa, hbp, hfi]; try omega)
        · simp

theorem spine_file_map_eq_firstIdx (book : List (String × EpubItem))
    (spineIds : List String) (p : String) :
    alistGet (spine_file_map book spineIds) p = firstIdx book p spineIds := by
  rw [spine_file_map, spineFileMapGo_lookup]
  show (firstIdx book p spineIds).map (fun i => 0 + i) = firstIdx book p spineIds
  cases firstIdx book p spineIds <;> simp

theorem firstIdx_eq_some (book : List (String × EpubItem)) (p : String) :
    ∀ (ids : List String) (i : Nat),
      firstIdx book p ids = some i ↔
        spinePath book ids i = some p ∧ ∀ j < i, spinePath book ids j ≠ some p := by
  intro ids
  induction ids with
  | nil => intro i; simp [firstIdx, spinePath]
  | cons itemId rest ih =>
    intro i
    by_cases hpa : pathAt book itemId = some p
    · have hstep : firstIdx book p (itemId :: rest) = some 0 := by
        simp [firstIdx, hpa]
      rw [hstep]
      cases i with
      | zero =>
        simp only [Option.some.injEq]
        constructor
        · intro _
          exact ⟨by simp [spinePath, hpa], fun j hj => absurd hj (Nat.not_lt_zero j)⟩
        · intro _; trivial
      | succ n =>
        simp only [Option.some.injEq]
        constructor
        · intro hc; exact absurd hc (by omega)
        · rintro ⟨_, hall⟩
          have h0 : spinePath book (itemId :: rest) 0 = some p := by simp [spinePath, hpa]
          exact absurd h0 (hall 0 (Nat.succ_pos n))
    · have hstep : firstIdx book p (itemId :: rest) = (firstIdx book p rest).map (· + 1) := by
        simp [firstIdx, hpa]
      rw [hstep]
      cases i with
      | zero =>
        constructor
        · intro hc
          cases hfi : firstIdx book p rest <;> rw [hfi] at hc <;> simp at hc
        · rintro ⟨h0, _⟩
          exact absurd (by simpa [spinePath] using h0) hpa
      | succ n =>
        have hmap : (firstIdx book p rest).map (· + 1) = some (n + 1) ↔
            firstIdx book p rest = some n := by
          cases firstIdx book p rest <;> simp
        rw [hmap, ih n]
        constructor
        · rintro ⟨hn, hall⟩
          refine ⟨by simpa [spinePath] using hn, fun j hj => ?_⟩
          cases j with
          | zero => simpa [spinePath] using hpa
          | succ k =>
            have := hall k (Nat.lt_of_succ_lt_succ hj)
            simpa [spinePath] using this
        · rintro ⟨hn, hall⟩
          refine ⟨by simpa [spinePath] using hn, fun j hj => ?_⟩
          have := hall (j + 1) (Nat.succ_lt_succ hj)
          simpa [spinePath] using this

/-- Claim C2: the spine file map sends a path to the position of its
first spine occurrence (fragments stripped), and nothing else. -/
theorem spine_file_map_first_occurrence (book : List (String × EpubItem))
    (spineIds : List String) (p : String) (i : Nat) :
    alistGet (spine_file_map book spineIds) p = some i ↔
      spinePath book spineIds i = some p ∧ ∀ j < i, spinePath book spineIds j ≠ some p := by
  rw [spine_file_map_eq_firstIdx]
  exact firstIdx_eq_some book p spineIds i

theorem processTocList_append (m : List (String × Nat)) (xs ys : List TocItem) :
    processTocList m (xs ++ ys) = processTocList m xs ++ processTocList m ys := by
  induction xs with
  | nil => simp [processTocList]
  | cons c cs ih => simp [processTocList, ih]

theorem tocLength_aux (m : List (String × Nat)) :
    ∀ n : Nat,
      (∀ it : TocItem, sizeOf it ≤ n → (processTocItem m it).length ≤ countLinks it)
      ∧ (∀ l : List TocItem, sizeOf l ≤ n → (processTocList m l).length ≤ countLinksList l) := by
  intro n
  induction n with
  | zero =>
    constructor
    · intro it hit
      exfalso
      cases it <;> (simp at hit; try omega)
    · intro l hl
      exfalso
      cases l <;> (simp at hl; try omega)
  | succ n ih =>
    obtain ⟨ihItem, ihList⟩ := ih
    constructor
    · intro it hit
      cases it with
      | Link t h =>
        simp only [processTocItem, countLinks, linkEntry]
        cases alistGet m (stripFragment h) <;> simp
      | Section t cs =>
        have hcs : sizeOf cs ≤ n := by simp at hit; omega
        simpa only [processTocItem, countLinks] using ihList cs hcs
      | Tuple fst rest =>
        simp only [TocItem.Tuple.sizeOf_spec] at hit
        have hfst : sizeOf fst ≤ n := by omega
        have hrest : sizeOf rest ≤ n := by omega
        clear hit
        have h1 : ∀ f : TocItem, sizeOf f ≤ n →
            (processTupleFst m f).length ≤ countLinks f := by
          intro f hf
          cases f with
          | Link t h =>
            simp only [processTupleFst, linkEntry, countLinks]
            cases alistGet m (stripFragment h) <;> simp
          | Section t cs =>
            have hcs : sizeOf cs ≤ n := by simp at hf; omega
            simpa only [processTupleFst, countLinks] using ihList cs hcs
          | Tuple f' r => simp [processTupleFst]
          | Other => simp [processTupleFst]
        have h2 : ∀ r : Option (List TocItem), sizeOf r ≤ n →
            (processTupleRest m r).length ≤ countLinksRest r := by
          intro r hr
          cases r with
          | none => simp [processTupleRest, countLinksRest]
          | some l =>
            have hl : sizeOf l ≤ n := by simp at hr; omega
            simpa only [processTupleRest, countLinksRest] using ihList l hl
        simp only [processTocItem, countLinks, List.length_append]
        exact Nat.add_le_add (h1 fst hfst) (h2 rest hrest)
      | Other => simp [processTocItem, countLinks]
    · intro l hl
      cases l with
      | nil => simp [processTocList, countLinksList]
      | cons c cs =>
        have hc : sizeOf c ≤ n := by simp at hl; omega
        have hcs : sizeOf cs ≤ n := by simp at hl; omega
        simp only [processTocList, countLinksList, List.length_append]
        exact Nat.add_le_add (ihItem c hc) (ihList cs hcs)

theorem processTocList_length_le (m : List (String × Nat)) (l : List TocItem) :
    (processTocList m l).length ≤ countLinksList l :=
  (tocLength_aux m (sizeOf l)).2 l (Nat.le_refl _)

/-- Claim C8: an unresolvable link contributes no entry and does not
stop traversal, and the table of contents never has more entries than
there are `Link` nodes in the tree. -/
theorem unresolvable_link_dropped (m : List (String × Nat)) (title : Option String)
    (href : String) (pre post items : List TocItem) :
    alistGet m (stripFragment href) = none →
      getTocList m (pre ++ TocItem.Link title href :: post) = getTocList m (pre ++ post)
      ∧ (getTocList m items).length ≤ countLinksList items := by
  intro h
  constructor
  · rw [getTocList, getTocList, processTocList_append, processTocList_append]
    simp [processTocList, processTocItem, linkEntry, h]
  · calc (getTocList m items).length ≤ (processTocList m items).length :=
        (dedupFirstAux_sublist [] _).length_le
      _ ≤ countLinksList items := processTocList_length_le m items

/-- Witness for `unresolvable_link_dropped` at a concrete map and tree. -/
theorem unresolvable_link_dropped_witness :
    alistGet ([(("unitA.xhtml"), 0)] : List (String × Nat)) (stripFragment ("gone.xhtml#x")) = none
    ∧ (getTocList [(("unitA.xhtml"), 0)]
          ([TocItem.Link (some ("Bad")) ("gone.xhtml#x"), TocItem.Link (some ("Ch1")) ("unitA.xhtml")])
        = getTocList [(("unitA.xhtml"), 0)] ([TocItem.Link (some ("Ch1")) ("unitA.xhtml")])
      ∧ (getTocList [(("unitA.xhtml"), 0)]
          ([TocItem.Link (some ("Ch1")) ("unitA.xhtml"), TocItem.Link (some ("Ch1b")) ("unitA.xhtml#note")])).length
        ≤ countLinksList [TocItem.Link (some ("Ch1")) ("unitA.xhtml"), TocItem.Link (some ("Ch1b")) ("unitA.xhtml#note")]) :=
  ⟨by decide,
   unresolvable_link_dropped [(("unitA.xhtml"), 0)] (some ("Bad")) ("gone.xhtml#x") []
     [TocItem.Link (some ("Ch1")) ("unitA.xhtml")]
     [TocItem.Link (some ("Ch1")) ("unitA.xhtml"), TocItem.Link (some ("Ch1b")) ("unitA.xhtml#note")]
     (by decide)⟩

/-- Claim C4: with the flag off the render uses the input unchanged,
and any exception inside `add_jlpt_highlighting` makes it return its
input unchanged, so a failure never reaches the caller. -/
theorem jlpt_disabled_or_error_returns_input (d : List (String × String))
    (tgE : String → Except String (List Token)) (doc : Node) :
    contentToRender false d tgE doc = doc
    ∧ ∀ e, annotateNodeE d tgE doc = Except.error e → contentToRender true d tgE doc = doc := by
  constructor
  · rfl
  · intro e he
    simp [contentToRender, add_jlpt_highlighting, he]

/-- Witness for `jlpt_disabled_or_error_returns_input`: a tokenizer
that always raises. -/
theorem jlpt_disabled_or_error_returns_input_witness :
    contentToRender false [] (fun _ => Except.error ("boom")) (Node.elem ("p") [] [Node.text ("x")])
      = Node.elem ("p") [] [Node.text ("x")]
    ∧ annotateNodeE [] (fun _ => Except.error ("boom")) (Node.elem ("p") [] [Node.text ("x")])
      = Except.error ("boom")
    ∧ contentToRender true [] (fun _ => Except.error ("boom")) (Node.elem ("p") [] [Node.text ("x")])
      = Node.elem ("p") [] [Node.text ("x")] :=
  ⟨(jlpt_disabled_or_error_returns_input [] (fun _ => Except.error ("boom"))
      (Node.elem ("p") [] [Node.text ("x")])).1,
   rfl,
   (jlpt_disabled_or_error_returns_input [] (fun _ => Except.error ("boom"))
      (Node.elem ("p") [] [Node.text ("x")])).2 ("boom") rfl⟩

/-- Claim C5 (amended): every `img` with a truthy `src` has it
replaced by the mapping applied to
`normpath(join(dirname(unit path), src))`; on the spec's example unit
the computed package path is `text/img/cover.png`. -/
theorem img_src_rewrite (f : String → String) (file : String)
    (attrs : List (String × String)) (cs : List Node) (src : String) :
    alistGet attrs ("src") = some src → src ≠ "" →
      rewriteImgSrc f (posixDirname file) (Node.elem ("img") attrs cs)
        = Node.elem ("img")
            (setAttr attrs ("src") (f (posixNormpath (posixJoin (posixDirname file) src))))
            (rewriteImgList f (posixDirname file) cs)
      ∧ posixNormpath (posixJoin (posixDirname ("text/ch1.xhtml")) ("img/cover.png"))
        = ("text/img/cover.png") := by
  intro h1 h2
  refine ⟨?_, by decide⟩
  simp [rewriteImgSrc, h1, h2]

/-- Witness for `img_src_rewrite` on the spec's example. -/
theorem img_src_rewrite_witness :
    alistGet [(("src"), ("img/cover.png"))] ("src") = some ("img/cover.png")
    ∧ rewriteImgSrc (fun p => p) (posixDirname ("text/ch1.xhtml"))
        (Node.elem ("img") [(("src"), ("img/cover.png"))] [])
      = Node.elem ("img")
          (setAttr [(("src"), ("img/cover.png"))] ("src")
            ((fun p => p) (posixNormpath (posixJoin (posixDirname ("text/ch1.xhtml")) ("img/cover.png")))))
          (rewriteImgList (fun p => p) (posixDirname ("text/ch1.xhtml")) []) :=
  ⟨by decide,
   (img_src_rewrite (fun p => p) ("text/ch1.xhtml") [(("src"), ("img/cover.png"))] []
      ("img/cover.png") (by decide) (by decide)).1⟩

/-- Claim C5 counterexample: lexical `normpath` keeps leading `..`,
so the rewritten reference can denote a path outside the package. -/
theorem img_src_rewrite_counterexample :
    rewriteImgSrc (fun p => p) (posixDirname ("text/ch1.xhtml"))
        (Node.elem ("img") [(("src"), ("../../img/x.png"))] [])
      = Node.elem ("img") [(("src"), ("../img/x.png"))] []
    ∧ (posixNormpath (posixJoin (posixDirname ("text/ch1.xhtml")) ("../../img/x.png"))).data.take 2
      = ['.', '.'] :=
  ⟨by decide, by decide⟩

/-- Claim C6 (amended): decoding with the `ignore` handler never
fails; an invalid byte is dropped without leaving any marker, and
valid bytes decode as usual. -/
theorem decode_drops_invalid_bytes (bs : List Nat) :
    decodeUtf8Ignore (255 :: bs) = decodeUtf8Ignore bs
    ∧ decodeUtf8Ignore (65 :: bs) = 'A' :: decodeUtf8Ignore bs :=
  ⟨rfl, rfl⟩

/-- Claim C6 counterexample: the invalid byte `0xFF` between `A` and
`B` is dropped — the result equals the decode of the valid input and
holds no U+FFFD loss marker, so nothing marks where it occurred. -/
theorem decode_no_loss_marker_counterexample :
    decodeUtf8Ignore [65, 255, 66] = decodeUtf8Ignore [65, 66]
    ∧ decodeUtf8Ignore [65, 255, 66] = ['A', 'B']
    ∧ ¬ Char.ofNat 0xFFFD ∈ decodeUtf8Ignore [65, 255, 66] :=
  ⟨by decide, by decide, by decide⟩

/-- Claim C7: a unit whose content cannot be read makes only that
request fail (as an unhandled server error, since the `except` block
itself raises before it can clear the session), the session is
unchanged, and any other readable unit still renders. -/
theorem unreadable_unit_is_local (s : SessionState) (book : LoadedBook) (i j : Nat) (c : String) :
    s.loaded = some book →
    book.unitContents[i]? = some none →
    book.unitContents[j]? = some (some c) →
      read_item s i = (RenderOutcome.serverError, s)
      ∧ read_item ((read_item s i).2) j = (RenderOutcome.page c, s) := by
  intro hs hi hj
  have hil : i < book.unitContents.length := (List.getElem?_eq_some.mp hi).1
  have hjl : j < book.unitContents.length := (List.getElem?_eq_some.mp hj).1
  have h1 : read_item s i = (RenderOutcome.serverError, s) := by
    simp [read_item, hs, hil, hi]
  refine ⟨h1, ?_⟩
  rw [h1]
  simp [read_item, hs, hjl, hj]

/-- Witness for `unreadable_unit_is_local`: a two-unit book whose
first unit is unreadable. -/
theorem unreadable_unit_is_local_witness :
    ({ loaded := some { unitContents := [none, some ("ok")] } } : SessionState).loaded
      = some { unitContents := [none, some ("ok")] }
    ∧ read_item { loaded := some { unitContents := [none, some ("ok")] } } 0
      = (RenderOutcome.serverError, { loaded := some { unitContents := [none, some ("ok")] } })
    ∧ read_item ((read_item { loaded := some { unitContents := [none, some ("ok")] } } 0).2) 1
      = (RenderOutcome.page ("ok"), { loaded := some { unitContents := [none, some ("ok")] } }) :=
  ⟨rfl,
   (unreadable_unit_is_local { loaded := some { unitContents := [none, some ("ok")] } }
      { unitContents := [none, some ("ok")] } 0 1 ("ok") rfl (by decide) (by decide)).1,
   (unreadable_unit_is_local { loaded := some { unitContents := [none, some ("ok")] } }
      { unitContents := [none, some ("ok")] } 0 1 ("ok") rfl (by decide) (by decide)).2⟩

theorem annotateContents_append (d : List (String × String)) (tg : String → List Token)
    (xs ys : List Node) :
    annotateContents d tg (xs ++ ys) = annotateContents d tg xs ++ annotateContents d tg ys := by
  induction xs with
  | nil => simp [annotateContents]
  | cons c cs ih =>
    cases c with
    | text s => simp [annotateContents, ih]
    | elem t a ch => simp [annotateContents, ih]

/-- Claim C3: a prose element's rewrite replaces only its direct text
runs.  Each element child is carried over as exactly one node — its
own visit's transform — in its place among the rewritten siblings, and
that transform keeps its tag and attributes unchanged. -/
theorem prose_rewrite_preserves_nontext_children (d : List (String × String))
    (tg : String → List Token) (tag : String) (attrs : List (String × String)) (cs : List Node) :
    contentTags.contains tag = true →
      annotateNode d tg (Node.elem tag attrs cs) = Node.elem tag attrs (annotateContents d tg cs)
      ∧ ∀ pre tag2 attrs2 cs2 post, cs = pre ++ Node.elem tag2 attrs2 cs2 :: post →
          annotateContents d tg cs
            = annotateContents d tg pre
                ++ annotateNode d tg (Node.elem tag2 attrs2 cs2) :: annotateContents d tg post
          ∧ ∃ cs3, annotateNode d tg (Node.elem tag2 attrs2 cs2) = Node.elem tag2 attrs2 cs3 := by
  intro hct
  have hm : tag ∈ contentTags := by simpa using hct
  constructor
  · simp [annotateNode, hm]
  · intro pre tag2 attrs2 cs2 post hcs
    subst hcs
    refine ⟨?_, ?_⟩
    · rw [annotateContents_append]
      simp [annotateContents]
    · by_cases h2 : tag2 ∈ contentTags
      · exact ⟨annotateContents d tg cs2, by simp [annotateNode, h2]⟩
      · exact ⟨annotateList d tg cs2, by simp [annotateNode, h2]⟩

/-- Witness for `prose_rewrite_preserves_nontext_children` on the
spec's `<p>Foo <img src="x"/> Bar</p>` example with a lexicon matching
`Foo`. -/
theorem prose_rewrite_preserves_nontext_children_witness :
    contentTags.contains ("p") = true
    ∧ annotateNode [(("Foo"), ("N5"))] (fun s => [⟨s, some s⟩])
        (Node.elem ("p") []
          [Node.text ("Foo"), Node.elem ("img") [(("src"), ("x"))] [], Node.text (" Bar")])
      = Node.elem ("p") []
          (annotateContents [(("Foo"), ("N5"))] (fun s => [⟨s, some s⟩])
            [Node.text ("Foo"), Node.elem ("img") [(("src"), ("x"))] [], Node.text (" Bar")])
    ∧ annotateContents [(("Foo"), ("N5"))] (fun s => [⟨s, some s⟩])
        [Node.text ("Foo"), Node.elem ("img") [(("src"), ("x"))] [], Node.text (" Bar")]
      = annotateContents [(("Foo"), ("N5"))] (fun s => [⟨s, some s⟩]) [Node.text ("Foo")]
          ++ annotateNode [(("Foo"), ("N5"))] (fun s => [⟨s, some s⟩])
              (Node.elem ("img") [(("src"), ("x"))] [])
            :: annotateContents [(("Foo"), ("N5"))] (fun s => [⟨s, some s⟩]) [Node.text (" Bar")]
    ∧ annotateNode [(("Foo"), ("N5"))] (fun s => [⟨s, some s⟩])
        (Node.elem ("img") [(("src"), ("x"))] [])
      = Node.elem ("img") [(("src"), ("x"))] [] :=
  ⟨by decide,
   (prose_rewrite_preserves_nontext_children [(("Foo"), ("N5"))] (fun s => [⟨s, some s⟩])
      ("p") []
      [Node.text ("Foo"), Node.elem ("img") [(("src"), ("x"))] [], Node.text (" Bar")]
      (by decide)).1,
   ((prose_rewrite_preserves_nontext_children [(("Foo"), ("N5"))] (fun s => [⟨s, some s⟩])
      ("p") []
      [Node.text ("Foo"), Node.elem ("img") [(("src"), ("x"))] [], Node.text (" Bar")]
      (by decide)).2 [Node.text ("Foo")] ("img") [(("src"), ("x"))] [] [Node.text (" Bar")]
      rfl).1,
   by decide⟩

/-- Claim C10: a direct text child that is only whitespace fails the
`child.strip()` test and is appended back verbatim — not tokenized,
not escaped, in its original place among the rewritten children. -/
theorem whitespace_text_child_unchanged (d : List (String × String))
    (tg : String → List Token) (tag : String) (attrs : List (String × String))
    (pre post : List Node) (s : String) :
    contentTags.contains tag = true → (∀ c ∈ s.data, isPySpace c = true) →
      annotateNode d tg (Node.elem tag attrs (pre ++ Node.text s :: post))
        = Node.elem tag attrs
            (annotateContents d tg pre ++ Node.text s :: annotateContents d tg post) := by
  intro hct hws
  have hm : tag ∈ contentTags := by simpa using hct
  have hsn : stripNonempty s = false := by
    rw [stripNonempty, List.any_eq_false]
    intro c hc
    simp [hws c hc]
  simp [annotateNode, hm, annotateContents_append, annotateContents, hsn]

/-- Witness for `whitespace_text_child_unchanged`: a pure-whitespace
run between two prose runs, with a lexicon entry that would otherwise
fire. -/
theorem whitespace_text_child_unchanged_witness :
    contentTags.contains ("div") = true
    ∧ isPySpace ' ' = true
    ∧ annotateNode [(("Foo"), ("N5"))] (fun s => [⟨s, some s⟩])
        (Node.elem ("div") [] ([Node.text ("Foo")] ++ Node.text ("  ") :: [Node.text ("Foo")]))
      = Node.elem ("div") []
          (annotateContents [(("Foo"), ("N5"))] (fun s => [⟨s, some s⟩]) [Node.text ("Foo")]
            ++ Node.text ("  ")
              :: annotateContents [(("Foo"), ("N5"))] (fun s => [⟨s, some s⟩]) [Node.text ("Foo")]) :=
  ⟨by decide, by decide,
   whitespace_text_child_unchanged [(("Foo"), ("N5"))] (fun s => [⟨s, some s⟩]) ("div") []
     [Node.text ("Foo")] [Node.text ("Foo")] ("  ") (by decide) (by decide)⟩

theorem tokenFragment_empty (tok : Token) :
    tokenFragment [] tok = Node.text (htmlEscape tok.surface) := by
  cases h : tok.feature_lemma <;> simp [tokenFragment, h, alistGet]

theorem skeletonList_append (xs ys : List Node) :
    skeletonList (xs ++ ys) = skeletonList xs ++ skeletonList ys := by
  induction xs with
  | nil => simp [skeletonList]
  | cons c cs ih => simp [skeletonList, ih]

theorem textContentList_append (xs ys : List Node) :
    textContentList (xs ++ ys) = textContentList xs ++ textContentList ys := by
  induction xs with
  | nil => simp [textContentList]
  | cons c cs ih => simp [textContentList, ih, String.append_assoc]

theorem skeletonList_map_tokenFragment_empty (toks : List Token) :
    skeletonList (toks.map (tokenFragment [])) = [] := by
  induction toks with
  | nil => simp [skeletonList]
  | cons t ts ih => simp [skeletonList, tokenFragment_empty, skeleton, ih]

theorem textContentList_map_tokenFragment_empty (toks : List Token) :
    textContentList (toks.map (tokenFragment []))
      = strConcat (toks.map (fun tok => htmlEscape tok.surface)) := by
  induction toks with
  | nil => simp [textContentList, strConcat]
  | cons t ts ih => simp [textContentList, tokenFragment_empty, textContent, ih, strConcat]

theorem annotateEmpty_aux (tg : String → List Token) :
    ∀ fuel : Nat,
      (∀ n : Node, sizeOf n ≤ fuel →
        skeleton (annotateNode [] tg n) = skeleton n
        ∧ (taggerFaithful tg n = true → textContent (annotateNode [] tg n) = textContent n))
      ∧ (∀ cs : List Node, sizeOf cs ≤ fuel →
        (skeletonList (annotateContents [] tg cs) = skeletonList cs
          ∧ skeletonList (annotateList [] tg cs) = skeletonList cs)
        ∧ ((runsOk tg cs = true → taggerFaithfulList tg cs = true →
              textContentList (annotateContents [] tg cs) = textContentList cs)
          ∧ (taggerFaithfulList tg cs = true →
              textContentList (annotateList [] tg cs) = textContentList cs))) := by
  intro fuel
  induction fuel with
  | zero =>
    constructor
    · intro n hn
      exfalso
      cases n <;> (simp at hn; try omega)
    · intro cs hcs
      exfalso
      cases cs <;> (simp at hcs; try omega)
  | succ fuel ih =>
    obtain ⟨ihN, ihL⟩ := ih
    constructor
    · intro n hn
      cases n with
      | text s => simp [annotateNode]
      | elem tag attrs children =>
        have hch : sizeOf children ≤ fuel := by simp at hn; omega
        by_cases hm : tag ∈ contentTags
        · have he : annotateNode [] tg (Node.elem tag attrs children)
              = Node.elem tag attrs (annotateContents [] tg children) := by
            simp [annotateNode, hm]
          have hob : contentTags.contains tag = true := by simpa using hm
          rw [he]
          constructor
          · simp only [skeleton]
            rw [((ihL children hch).1).1]
          · intro hf
            simp only [taggerFaithful, hob, Bool.not_true, Bool.false_or,
              Bool.and_eq_true] at hf
            simp only [textContent]
            exact ((ihL children hch).2).1 hf.1 hf.2
        · have he : annotateNode [] tg (Node.elem tag attrs children)
              = Node.elem tag attrs (annotateList [] tg children) := by
            simp [annotateNode, hm]
          have hob : contentTags.contains tag = false := by simpa using hm
          rw [he]
          constructor
          · simp only [skeleton]
            rw [((ihL children hch).1).2]
          · intro hf
            simp only [taggerFaithful, hob, Bool.not_false, Bool.true_or,
              Bool.true_and] at hf
            simp only [textContent]
            exact ((ihL children hch).2).2 hf
    · intro cs hcs
      cases cs with
      | nil =>
        refine ⟨⟨by simp [annotateContents], by simp [annotateList]⟩,
                fun _ _ => by simp [annotateContents], fun _ => by simp [annotateList]⟩
      | cons c rest =>
        have hc : sizeOf c ≤ fuel := by simp at hcs; omega
        have hrest : sizeOf rest ≤ fuel := by simp at hcs; omega
        clear hcs
        cases c with
        | text s =>
          have heC : annotateContents [] tg (Node.text s :: rest)
              = (if stripNonempty s then (tg s).map (tokenFragment []) else [Node.text s])
                  ++ annotateContents [] tg rest := by
            simp [annotateContents]
          have heL : annotateList [] tg (Node.text s :: rest)
              = Node.text s :: annotateList [] tg rest := by
            simp [annotateList, annotateNode]
          refine ⟨⟨?_, ?_⟩, ?_, ?_⟩
          · rw [heC, skeletonList_append]
            have h1 : skeletonList
                (if stripNonempty s then (tg s).map (tokenFragment []) else [Node.text s])
                = [] := by
              by_cases hsn : stripNonempty s <;>
                simp [hsn, skeletonList_map_tokenFragment_empty, skeletonList, skeleton]
            rw [h1]
            simp [skeletonList, skeleton, ((ihL rest hrest).1).1]
          · rw [heL]
            simp [skeletonList, skeleton, ((ihL rest hrest).1).2]
          · intro hro hfl
            have hro' : (!(stripNonempty s) || runOk tg s) = true ∧ runsOk tg rest = true := by
              simpa [runsOk, List.all_cons] using hro
            have hfl' : taggerFaithfulList tg rest = true := by
              simpa [taggerFaithfulList, taggerFaithful] using hfl
            rw [heC, textContentList_append]
            by_cases hsn : stripNonempty s
            · have hrun : runOk tg s = true := by
                rcases Bool.or_eq_true_iff.mp hro'.1 with h | h
                · rw [hsn] at h; exact absurd h (by simp)
                · exact h
              have hs : strConcat ((tg s).map (fun tok => htmlEscape tok.surface)) = s := by
                have := hrun
                rw [runOk] at this
                exact beq_iff_eq.mp this
              rw [if_pos hsn, textContentList_map_tokenFragment_empty, hs,
                ((ihL rest hrest).2).1 hro'.2 hfl']
              simp [textContentList, textContent]
            · rw [if_neg hsn]
              simp only [textContentList, textContent, String.append_empty]
              rw [((ihL rest hrest).2).1 hro'.2 hfl']
          · intro hfl
            have hfl' : taggerFaithfulList tg rest = true := by
              simpa [taggerFaithfulList, taggerFaithful] using hfl
            rw [heL]
            simp only [textContentList, textContent]
            rw [((ihL rest hrest).2).2 hfl']
        | elem t2 a2 ch2 =>
          have heC : annotateContents [] tg (Node.elem t2 a2 ch2 :: rest)
              = annotateNode [] tg (Node.elem t2 a2 ch2) :: annotateContents [] tg rest := by
            simp [annotateContents]
          have heL : annotateList [] tg (Node.elem t2 a2 ch2 :: rest)
              = annotateNode [] tg (Node.elem t2 a2 ch2) :: annotateList [] tg rest := by
            simp [annotateList]
          refine ⟨⟨?_, ?_⟩, ?_, ?_⟩
          · rw [heC]
            simp only [skeletonList]
            rw [(ihN (Node.elem t2 a2 ch2) hc).1, ((ihL rest hrest).1).1]
          · rw [heL]
            simp only [skeletonList]
            rw [(ihN (Node.elem t2 a2 ch2) hc).1, ((ihL rest hrest).1).2]
          · intro hro hfl
            have hro' : runsOk tg rest = true := by
              simpa [runsOk, List.all_cons] using hro
            have hfl' : taggerFaithful tg (Node.elem t2 a2 ch2) = true
                ∧ taggerFaithfulList tg rest = true := by
              simpa [taggerFaithfulList] using hfl
            rw [heC]
            simp only [textContentList]
            rw [(ihN (Node.elem t2 a2 ch2) hc).2 hfl'.1, ((ihL rest hrest).2).1 hro' hfl'.2]
          · intro hfl
            have hfl' : taggerFaithful tg (Node.elem t2 a2 ch2) = true
                ∧ taggerFaithfulList tg rest = true := by
              simpa [taggerFaithfulList] using hfl
            rw [heL]
            simp only [textContentList]
            rw [(ihN (Node.elem t2 a2 ch2) hc).2 hfl'.1, ((ihL rest hrest).2).2 hfl'.2]

/-- Claim C9 (amended): with an empty lexicon the rewrite introduces
no spans and leaves the element structure (tags, attributes, nesting,
order) unchanged; the text content is unchanged whenever every
tokenized run is reproduced by its escaped token surfaces (for text
with escapable characters the pass HTML-escapes the run, so exact
identity does not hold in general). -/
theorem empty_lexicon_no_spans (tg : String → List Token) (n : Node) :
    skeleton (annotateNode [] tg n) = skeleton n
    ∧ (taggerFaithful tg n = true → textContent (annotateNode [] tg n) = textContent n) :=
  (annotateEmpty_aux tg (sizeOf n)).1 n (Nat.le_refl _)

/-- Witness for `empty_lexicon_no_spans` on a lossless tokenizer and
escape-free text. -/
theorem empty_lexicon_no_spans_witness :
    taggerFaithful (fun s => [⟨s, some s⟩])
        (Node.elem ("p") []
          [Node.text ("Foo"), Node.elem ("img") [(("src"), ("x"))] [], Node.text (" Bar")])
      = true
    ∧ skeleton (annotateNode [] (fun s => [⟨s, some s⟩])
        (Node.elem ("p") []
          [Node.text ("Foo"), Node.elem ("img") [(("src"), ("x"))] [], Node.text (" Bar")]))
      = skeleton (Node.elem ("p") []
          [Node.text ("Foo"), Node.elem ("img") [(("src"), ("x"))] [], Node.text (" Bar")])
    ∧ textContent (annotateNode [] (fun s => [⟨s, some s⟩])
        (Node.elem ("p") []
          [Node.text ("Foo"), Node.elem ("img") [(("src"), ("x"))] [], Node.text (" Bar")]))
      = textContent (Node.elem ("p") []
          [Node.text ("Foo"), Node.elem ("img") [(("src"), ("x"))] [], Node.text (" Bar")]) :=
  ⟨by decide,
   (empty_lexicon_no_spans (fun s => [⟨s, some s⟩])
      (Node.elem ("p") []
        [Node.text ("Foo"), Node.elem ("img") [(("src"), ("x"))] [], Node.text (" Bar")])).1,
   (empty_lexicon_no_spans (fun s => [⟨s, some s⟩])
      (Node.elem ("p") []
        [Node.text ("Foo"), Node.elem ("img") [(("src"), ("x"))] [], Node.text (" Bar")])).2
     (by decide)⟩

/-- Claim C9 counterexample: with the empty lexicon and a lossless
single-token tokenizer, a text run containing `&` is HTML-escaped a
second time, so the output is not semantically identical to the
input — its text content changes and no tokenization split explains
it. -/
theorem empty_lexicon_not_identity_counterexample :
    annotateNode [] (fun s => [⟨s, some s⟩]) (Node.elem ("p") [] [Node.text ("A&B")])
      = Node.elem ("p") [] [Node.text ("A&amp;B")]
    ∧ textContent (annotateNode [] (fun s => [⟨s, some s⟩])
        (Node.elem ("p") [] [Node.text ("A&B")]))
      ≠ textContent (Node.elem ("p") [] [Node.text ("A&B")]) :=
  ⟨by decide, by decide⟩

/-- Witness for `getTocList_first_occurrences` on the spec's example
navigation tree: two links to the same unit deduplicate to one entry. -/
theorem getTocList_first_occurrences_witness :
    List.Nodup ((getTocList [(("unitA.xhtml"), 0)]
        [TocItem.Tuple (TocItem.Section (some ("Part 1")) []) (some
          [TocItem.Link (some ("Ch1")) ("unitA.xhtml"),
           TocItem.Link (some ("Ch1b")) ("unitA.xhtml#note")])]).map TocEntry.index)
    ∧ List.Sublist
        (getTocList [(("unitA.xhtml"), 0)]
          [TocItem.Tuple (TocItem.Section (some ("Part 1")) []) (some
            [TocItem.Link (some ("Ch1")) ("unitA.xhtml"),
             TocItem.Link (some ("Ch1b")) ("unitA.xhtml#note")])])
        (processTocList [(("unitA.xhtml"), 0)]
          [TocItem.Tuple (TocItem.Section (some ("Part 1")) []) (some
            [TocItem.Link (some ("Ch1")) ("unitA.xhtml"),
             TocItem.Link (some ("Ch1b")) ("unitA.xhtml#note")])])
    ∧ (({ title := ("Ch1"), index := 0, href := ("unitA.xhtml") } : TocEntry)
        ∈ getTocList [(("unitA.xhtml"), 0)]
            [TocItem.Tuple (TocItem.Section (some ("Part 1")) []) (some
              [TocItem.Link (some ("Ch1")) ("unitA.xhtml"),
               TocItem.Link (some ("Ch1b")) ("unitA.xhtml#note")])]
      ↔ List.find? (fun x => x.index == 0)
          (processTocList [(("unitA.xhtml"), 0)]
            [TocItem.Tuple (TocItem.Section (some ("Part 1")) []) (some
              [TocItem.Link (some ("Ch1")) ("unitA.xhtml"),
               TocItem.Link (some ("Ch1b")) ("unitA.xhtml#note")])])
          = some { title := ("Ch1"), index := 0, href := ("unitA.xhtml") }) :=
  ⟨(getTocList_first_occurrences [(("unitA.xhtml"), 0)]
      [TocItem.Tuple (TocItem.Section (some ("Part 1")) []) (some
        [TocItem.Link (some ("Ch1")) ("unitA.xhtml"),
         TocItem.Link (some ("Ch1b")) ("unitA.xhtml#note")])]).1,
   (getTocList_first_occurrences [(("unitA.xhtml"), 0)]
      [TocItem.Tuple (TocItem.Section (some ("Part 1")) []) (some
        [TocItem.Link (some ("Ch1")) ("unitA.xhtml"),
         TocItem.Link (some ("Ch1b")) ("unitA.xhtml#note")])]).2.1,
   (getTocList_first_occurrences [(("unitA.xhtml"), 0)]
      [TocItem.Tuple (TocItem.Section (some ("Part 1")) []) (some
        [TocItem.Link (some ("Ch1")) ("unitA.xhtml"),
         TocItem.Link (some ("Ch1b")) ("unitA.xhtml#note")])]).2.2
     { title := ("Ch1"), index := 0, href := ("unitA.xhtml") }⟩

/-- Witness for `spine_file_map_first_occurrence`: two spine entries
sharing a path up to fragment index to the earlier position. -/
theorem spine_file_map_first_occurrence_witness :
    alistGet (spine_file_map
        [(("a"), ⟨("unitA.xhtml")⟩), (("b"), ⟨("unitA.xhtml#x")⟩)] [("a"), ("b")])
        ("unitA.xhtml") = some 0 :=
  (spine_file_map_first_occurrence
      [(("a"), ⟨("unitA.xhtml")⟩), (("b"), ⟨("unitA.xhtml#x")⟩)] [("a"), ("b")]
      ("unitA.xhtml") 0).mpr ⟨by decide, by decide⟩
